import Mathlib

/-!
# Verification of the Courrieu pseudoinverse and ELM glue (ELM.ipynb)

The notebook defines `mp_pinv`, a Cholesky-based computation of the
Moore-Penrose pseudoinverse (Courrieu's algorithm), and uses it to train an
Extreme Learning Machine.  We embed the code shallowly:

* matrices are `Matrix (Fin m) (Fin n) ℝ` (exact arithmetic stands in for
  IEEE doubles);
* the two numpy linear-algebra library calls, `np.linalg.cholesky` and
  `np.linalg.inv`, are an oracle (`NumpyLinalg`) whose contract
  (`NumpyLinalg.Spec`) states what those library functions do: Cholesky
  succeeds on positive-definite input with a factor `L` satisfying
  `L * Lᵀ = A` and raises otherwise, and `inv` returns the inverse of a
  nonsingular matrix and raises on a singular one;
* raised exceptions become `Except` values;
* the shape discipline of the chain of `np.matmul` calls is mirrored by a
  separate shape-level semantics (`mp_pinvShape`), where `np.matmul`
  rejects mismatched inner dimensions.
-/

open Matrix

namespace ELM

/-- Errors surfaced by the numpy linear-algebra calls used in `mp_pinv`:
`factorization` is the error raised by `np.linalg.cholesky` on input that is
not positive definite, `singular` the error raised by `np.linalg.inv` on a
singular matrix. -/
inductive LinAlgError where
  | factorization
  | singular
deriving DecidableEq

/-- The two numpy library routines `mp_pinv` calls, as an oracle: `chol` is
`np.linalg.cholesky`, `inv` is `np.linalg.inv`; both may raise. -/
structure NumpyLinalg where
  chol : ∀ {k : ℕ}, Matrix (Fin k) (Fin k) ℝ → Except LinAlgError (Matrix (Fin k) (Fin k) ℝ)
  inv : ∀ {k : ℕ}, Matrix (Fin k) (Fin k) ℝ → Except LinAlgError (Matrix (Fin k) (Fin k) ℝ)

/-- Contract of the numpy library routines under exact arithmetic:
`np.linalg.cholesky` returns a factor `L` with `L * Lᵀ = A` on positive
definite input and raises a factorization error otherwise; `np.linalg.inv`
returns the inverse of a nonsingular matrix and raises a singular-matrix
error on a singular one. -/
structure NumpyLinalg.Spec (np : NumpyLinalg) : Prop where
  chol_ok : ∀ {k : ℕ} (A : Matrix (Fin k) (Fin k) ℝ), A.PosDef →
    ∃ L, np.chol A = .ok L ∧ L * Lᵀ = A
  chol_err : ∀ {k : ℕ} (A : Matrix (Fin k) (Fin k) ℝ), ¬ A.PosDef →
    np.chol A = .error .factorization
  inv_ok : ∀ {k : ℕ} (A : Matrix (Fin k) (Fin k) ℝ), IsUnit A.det →
    np.inv A = .ok A⁻¹
  inv_err : ∀ {k : ℕ} (A : Matrix (Fin k) (Fin k) ℝ), ¬ IsUnit A.det →
    np.inv A = .error .singular

/-- Embedding of `mp_pinv(G)` from the notebook.  The code branches on
`m < n`; forms the Gram matrix `A = G @ G.T` (wide) or `A = G.T @ G`
(tall/square); calls `np.linalg.cholesky(A)`; computes
`M = np.linalg.inv(L.T @ L)`; and assembles
`Y = G.T @ L @ M @ M @ L.T` (wide) or `Y = L @ M @ M @ L.T @ G.T` (tall),
propagating any exception raised by the two library calls. -/
def mp_pinv (np : NumpyLinalg) {m n : ℕ} (G : Matrix (Fin m) (Fin n) ℝ) :
    Except LinAlgError (Matrix (Fin n) (Fin m) ℝ) :=
  if m < n then
    match np.chol (G * Gᵀ) with
    | .error e => .error e
    | .ok L =>
      match np.inv (Lᵀ * L) with
      | .error e => .error e
      | .ok M => .ok (Gᵀ * L * M * M * Lᵀ)
  else
    match np.chol (Gᵀ * G) with
    | .error e => .error e
    | .ok L =>
      match np.inv (Lᵀ * L) with
      | .error e => .error e
      | .ok M => .ok (L * M * M * Lᵀ * Gᵀ)

/-! ## Shape-level semantics of the numpy operations in `mp_pinv`

`np.matmul` requires the inner dimensions to agree; `np.linalg.cholesky`
and `np.linalg.inv` require a square argument.  `mp_pinvShape` replays the
exact chain of numpy calls of `mp_pinv` on shapes alone. -/

/-- Shape of `np.matmul`: defined only when the inner dimensions agree. -/
def matmulShape (s t : ℕ × ℕ) : Option (ℕ × ℕ) :=
  if s.2 = t.1 then some (s.1, t.2) else none

/-- Shape of `.T`. -/
def transposeShape (s : ℕ × ℕ) : ℕ × ℕ := (s.2, s.1)

/-- Shape of `np.linalg.cholesky`: defined only on square shapes. -/
def cholShape (s : ℕ × ℕ) : Option (ℕ × ℕ) :=
  if s.1 = s.2 then some s else none

/-- Shape of `np.linalg.inv`: defined only on square shapes. -/
def invShape (s : ℕ × ℕ) : Option (ℕ × ℕ) :=
  if s.1 = s.2 then some s else none

/-- The shapes computed by `mp_pinv` on an input of shape `(m, n)`,
replaying each numpy call of the source in order. -/
def mp_pinvShape (m n : ℕ) : Option (ℕ × ℕ) := do
  let g := (m, n)
  let a ← if m < n then matmulShape g (transposeShape g)
          else matmulShape (transposeShape g) g
  let l ← cholShape a
  let ltl ← matmulShape (transposeShape l) l
  let mm ← invShape ltl
  if m < n then
    let y1 ← matmulShape (transposeShape g) l
    let y2 ← matmulShape y1 mm
    let y3 ← matmulShape y2 mm
    matmulShape y3 (transposeShape l)
  else
    let y1 ← matmulShape l mm
    let y2 ← matmulShape y1 mm
    let y3 ← matmulShape y2 (transposeShape l)
    matmulShape y3 (transposeShape g)

/-! ## The ELM glue: sigmoid, hidden layer, thresholding -/

/-- The notebook's `sigmoid(x) = 1/(1+np.exp(-x))`. -/
noncomputable def sigmoid (x : ℝ) : ℝ := 1 / (1 + Real.exp (-x))

/-- Elementwise application of `sigmoid` to a matrix, as numpy broadcasts
`sigmoid` over `temp_H`. -/
noncomputable def sigmoidM {a b : ℕ} (T : Matrix (Fin a) (Fin b) ℝ) : Matrix (Fin a) (Fin b) ℝ :=
  Matrix.of fun i j => sigmoid (T i j)

/-- The bias matrix `b_m = b_i * np.ones(t)`: column vector `b_i`
broadcast across `t` columns. -/
def biasMatrix {h t : ℕ} (b_i : Fin h → ℝ) : Matrix (Fin h) (Fin t) ℝ :=
  Matrix.of fun i _ => b_i i

/-- The hidden-layer activation `H = sigmoid(w_i @ X.T + b_m)` (the same
expression builds `H` from `Xtrain` and `H_test` from `Xtest`). -/
noncomputable def hiddenH {h d t : ℕ} (w_i : Matrix (Fin h) (Fin d) ℝ) (b_i : Fin h → ℝ)
    (X : Matrix (Fin t) (Fin d) ℝ) : Matrix (Fin h) (Fin t) ℝ :=
  sigmoidM (w_i * Xᵀ + biasMatrix b_i)

/-- The notebook's `Ypred = np.where(testY <= 0.5, 0, 1)`. -/
noncomputable def Ypred {a b : ℕ} (testY : Matrix (Fin a) (Fin b) ℝ) : Matrix (Fin a) (Fin b) ℝ :=
  Matrix.of fun i j => if testY i j ≤ 0.5 then 0 else 1

/-! ## A model of the numpy library satisfying the contract

`stdNumpy` realises `NumpyLinalg.Spec`: its `chol` returns the positive
semidefinite square root of a positive definite matrix (a factor `L` with
`L * Lᵀ = A`), and its `inv` returns the matrix inverse on nonsingular
input; both raise on invalid input exactly as numpy does. -/

open scoped Classical in
noncomputable def stdNumpy : NumpyLinalg where
  chol := fun {k} A =>
    if h : A.PosDef then .ok h.posSemidef.sqrt else .error .factorization
  inv := fun {k} A =>
    if IsUnit A.det then .ok A⁻¹ else .error .singular

theorem stdNumpy_spec : stdNumpy.Spec := by
  constructor
  · intro k A hA
    refine ⟨hA.posSemidef.sqrt, ?_, ?_⟩
    · simp only [stdNumpy]
      rw [dif_pos hA]
    · have hsym : (hA.posSemidef.sqrt)ᵀ = hA.posSemidef.sqrt := by
        rw [← Matrix.conjTranspose_eq_transpose_of_trivial]
        exact hA.posSemidef.posSemidef_sqrt.1
      rw [hsym, hA.posSemidef.sqrt_mul_self]
  · intro k A hA
    simp only [stdNumpy]
    rw [dif_neg hA]
  · intro k A hA
    simp only [stdNumpy]
    rw [if_pos hA]
  · intro k A hA
    simp only [stdNumpy]
    rw [if_neg hA]

/-! ## Reduction lemmas: how `mp_pinv` evaluates on each code path -/

theorem mp_pinv_lt_ok {np : NumpyLinalg} {m n : ℕ} {G : Matrix (Fin m) (Fin n) ℝ}
    {L MM : Matrix (Fin m) (Fin m) ℝ} (h : m < n)
    (hL : np.chol (G * Gᵀ) = .ok L) (hM : np.inv (Lᵀ * L) = .ok MM) :
    mp_pinv np G = .ok (Gᵀ * L * MM * MM * Lᵀ) := by
  simp only [mp_pinv, if_pos h, hL, hM]

theorem mp_pinv_ge_ok {np : NumpyLinalg} {m n : ℕ} {G : Matrix (Fin m) (Fin n) ℝ}
    {L MM : Matrix (Fin n) (Fin n) ℝ} (h : ¬ m < n)
    (hL : np.chol (Gᵀ * G) = .ok L) (hM : np.inv (Lᵀ * L) = .ok MM) :
    mp_pinv np G = .ok (L * MM * MM * Lᵀ * Gᵀ) := by
  simp only [mp_pinv, if_neg h, hL, hM]

theorem mp_pinv_lt_chol_err {np : NumpyLinalg} {m n : ℕ} {G : Matrix (Fin m) (Fin n) ℝ}
    {e : LinAlgError} (h : m < n) (hL : np.chol (G * Gᵀ) = .error e) :
    mp_pinv np G = .error e := by
  simp only [mp_pinv, if_pos h, hL]

theorem mp_pinv_ge_chol_err {np : NumpyLinalg} {m n : ℕ} {G : Matrix (Fin m) (Fin n) ℝ}
    {e : LinAlgError} (h : ¬ m < n) (hL : np.chol (Gᵀ * G) = .error e) :
    mp_pinv np G = .error e := by
  simp only [mp_pinv, if_neg h, hL]

theorem mp_pinv_lt_inv_err {np : NumpyLinalg} {m n : ℕ} {G : Matrix (Fin m) (Fin n) ℝ}
    {L : Matrix (Fin m) (Fin m) ℝ} {e : LinAlgError} (h : m < n)
    (hL : np.chol (G * Gᵀ) = .ok L) (hM : np.inv (Lᵀ * L) = .error e) :
    mp_pinv np G = .error e := by
  simp only [mp_pinv, if_pos h, hL, hM]

theorem mp_pinv_ge_inv_err {np : NumpyLinalg} {m n : ℕ} {G : Matrix (Fin m) (Fin n) ℝ}
    {L : Matrix (Fin n) (Fin n) ℝ} {e : LinAlgError} (h : ¬ m < n)
    (hL : np.chol (Gᵀ * G) = .ok L) (hM : np.inv (Lᵀ * L) = .error e) :
    mp_pinv np G = .error e := by
  simp only [mp_pinv, if_neg h, hL, hM]

/-! ## Full rank and positive definiteness of the Gram matrix -/

/-- A matrix of full column rank has trivial kernel. -/
theorem mulVec_eq_zero_of_rank_eq {m n : ℕ} (G : Matrix (Fin m) (Fin n) ℝ)
    (h : G.rank = n) {v : Fin n → ℝ} (hv : G *ᵥ v = 0) : v = 0 := by
  have h1 := LinearMap.finrank_range_add_finrank_ker G.mulVecLin
  have h2 : Module.finrank ℝ (LinearMap.range G.mulVecLin) = n := h
  rw [h2, Module.finrank_fin_fun] at h1
  have h3 : Module.finrank ℝ (LinearMap.ker G.mulVecLin) = 0 := by omega
  have h4 : LinearMap.ker G.mulVecLin = ⊥ := Submodule.finrank_eq_zero.mp h3
  exact Matrix.ker_mulVecLin_eq_bot_iff.mp h4 v hv

/-- With full column rank, the Gram matrix `Gᵀ * G` is positive definite. -/
theorem posDef_transpose_mul_self {m n : ℕ} (G : Matrix (Fin m) (Fin n) ℝ)
    (h : G.rank = n) : (Gᵀ * G).PosDef := by
  constructor
  · have hh := Matrix.isHermitian_transpose_mul_self G
    rwa [Matrix.conjTranspose_eq_transpose_of_trivial] at hh
  · intro x hx
    have hGx : G *ᵥ x ≠ 0 := fun h0 => hx (mulVec_eq_zero_of_rank_eq G h h0)
    have hs : star x = x := by
      funext i
      exact star_trivial _
    rw [hs, ← Matrix.mulVec_mulVec, Matrix.dotProduct_mulVec, Matrix.vecMul_transpose]
    have h0 : dotProduct (G *ᵥ x) (G *ᵥ x) ≠ 0 :=
      fun hz => hGx (Matrix.dotProduct_self_eq_zero.mp hz)
    have h1 : 0 ≤ dotProduct (G *ᵥ x) (G *ᵥ x) :=
      Finset.sum_nonneg fun i _ => mul_self_nonneg _
    exact lt_of_le_of_ne h1 (Ne.symm h0)

/-- With full row rank, the Gram matrix `G * Gᵀ` is positive definite. -/
theorem posDef_self_mul_transpose {m n : ℕ} (G : Matrix (Fin m) (Fin n) ℝ)
    (h : G.rank = m) : (G * Gᵀ).PosDef := by
  have hp := posDef_transpose_mul_self Gᵀ (by rwa [Matrix.rank_transpose])
  rwa [Matrix.transpose_transpose] at hp

/-- Conversely, a positive definite Gram matrix `Gᵀ * G` forces full
column rank. -/
theorem rank_eq_of_posDef_transpose_mul_self {m n : ℕ} (G : Matrix (Fin m) (Fin n) ℝ)
    (h : (Gᵀ * G).PosDef) : G.rank = n := by
  have h1 : (Gᵀ * G).rank = Fintype.card (Fin n) :=
    Matrix.rank_of_isUnit _ h.isUnit
  rw [Matrix.rank_transpose_mul_self, Fintype.card_fin] at h1
  exact h1

/-- Conversely, a positive definite Gram matrix `G * Gᵀ` forces full
row rank. -/
theorem rank_eq_of_posDef_self_mul_transpose {m n : ℕ} (G : Matrix (Fin m) (Fin n) ℝ)
    (h : (G * Gᵀ).PosDef) : G.rank = m := by
  have h1 : (G * Gᵀ).rank = Fintype.card (Fin m) :=
    Matrix.rank_of_isUnit _ h.isUnit
  rw [Matrix.rank_self_mul_transpose, Fintype.card_fin] at h1
  exact h1

/-! ## The Courrieu assembly formula -/

/-- A Cholesky factor of a positive definite matrix is nonsingular. -/
theorem isUnit_det_of_cholesky {k : ℕ} {A L : Matrix (Fin k) (Fin k) ℝ}
    (hA : A.PosDef) (hL : L * Lᵀ = A) : IsUnit L.det := by
  have hdet : A.det = L.det * L.det := by
    rw [← hL, Matrix.det_mul, Matrix.det_transpose]
  have hpos : 0 < A.det := hA.det_pos
  refine isUnit_iff_ne_zero.mpr fun h0 => ?_
  rw [hdet, h0, mul_zero] at hpos
  exact lt_irrefl _ hpos

/-- The core of Courrieu's algorithm: with `M = (Lᵀ * L)⁻¹`, the product
`L * M * M * Lᵀ` equals `A⁻¹`. -/
theorem courrieu_core {k : ℕ} {A L : Matrix (Fin k) (Fin k) ℝ}
    (hA : A.PosDef) (hL : L * Lᵀ = A) :
    L * (Lᵀ * L)⁻¹ * (Lᵀ * L)⁻¹ * Lᵀ = A⁻¹ := by
  have hLd : IsUnit L.det := isUnit_det_of_cholesky hA hL
  have hLtd : IsUnit Lᵀ.det := by rwa [Matrix.det_transpose]
  have h1 : A⁻¹ = Lᵀ⁻¹ * L⁻¹ := by rw [← hL, Matrix.mul_inv_rev]
  rw [h1]
  simp only [Matrix.mul_inv_rev, ← Matrix.mul_assoc]
  rw [Matrix.mul_nonsing_inv _ hLd, Matrix.one_mul,
    Matrix.mul_assoc (Lᵀ⁻¹ * L⁻¹), Matrix.nonsing_inv_mul _ hLtd, Matrix.mul_one]

/-- Value of the tall/square assembly: `L * M * M * Lᵀ * Gᵀ = (Gᵀ*G)⁻¹ * Gᵀ`. -/
theorem tall_value {m n : ℕ} (G : Matrix (Fin m) (Fin n) ℝ)
    {L : Matrix (Fin n) (Fin n) ℝ} (hA : (Gᵀ * G).PosDef) (hL : L * Lᵀ = Gᵀ * G) :
    L * (Lᵀ * L)⁻¹ * (Lᵀ * L)⁻¹ * Lᵀ * Gᵀ = (Gᵀ * G)⁻¹ * Gᵀ := by
  rw [courrieu_core hA hL]

/-- Value of the wide assembly: `Gᵀ * L * M * M * Lᵀ = Gᵀ * (G*Gᵀ)⁻¹`. -/
theorem wide_value {m n : ℕ} (G : Matrix (Fin m) (Fin n) ℝ)
    {L : Matrix (Fin m) (Fin m) ℝ} (hA : (G * Gᵀ).PosDef) (hL : L * Lᵀ = G * Gᵀ) :
    Gᵀ * L * (Lᵀ * L)⁻¹ * (Lᵀ * L)⁻¹ * Lᵀ = Gᵀ * (G * Gᵀ)⁻¹ := by
  have hc := courrieu_core hA hL
  calc Gᵀ * L * (Lᵀ * L)⁻¹ * (Lᵀ * L)⁻¹ * Lᵀ
      = Gᵀ * (L * (Lᵀ * L)⁻¹ * (Lᵀ * L)⁻¹ * Lᵀ) := by
        simp only [Matrix.mul_assoc]
    _ = Gᵀ * (G * Gᵀ)⁻¹ := by rw [hc]

/-- Under the library contract, on the tall/square branch with positive
definite Gram matrix, `mp_pinv` returns `(Gᵀ*G)⁻¹ * Gᵀ`. -/
theorem mp_pinv_tall_eval (np : NumpyLinalg) (hnp : np.Spec) {m n : ℕ}
    (G : Matrix (Fin m) (Fin n) ℝ) (h : ¬ m < n) (hA : (Gᵀ * G).PosDef) :
    mp_pinv np G = .ok ((Gᵀ * G)⁻¹ * Gᵀ) := by
  obtain ⟨L, hL, hfac⟩ := hnp.chol_ok _ hA
  have hLd := isUnit_det_of_cholesky hA hfac
  have hLtLd : IsUnit (Lᵀ * L).det := by
    rw [Matrix.det_mul, Matrix.det_transpose]
    exact hLd.mul hLd
  rw [mp_pinv_ge_ok h hL (hnp.inv_ok _ hLtLd), tall_value G hA hfac]

/-- Under the library contract, on the wide branch with positive definite
Gram matrix, `mp_pinv` returns `Gᵀ * (G*Gᵀ)⁻¹`. -/
theorem mp_pinv_wide_eval (np : NumpyLinalg) (hnp : np.Spec) {m n : ℕ}
    (G : Matrix (Fin m) (Fin n) ℝ) (h : m < n) (hA : (G * Gᵀ).PosDef) :
    mp_pinv np G = .ok (Gᵀ * (G * Gᵀ)⁻¹) := by
  obtain ⟨L, hL, hfac⟩ := hnp.chol_ok _ hA
  have hLd := isUnit_det_of_cholesky hA hfac
  have hLtLd : IsUnit (Lᵀ * L).det := by
    rw [Matrix.det_mul, Matrix.det_transpose]
    exact hLd.mul hLd
  rw [mp_pinv_lt_ok h hL (hnp.inv_ok _ hLtLd), wide_value G hA hfac]

/-- The four Moore-Penrose identities for `(Gᵀ*G)⁻¹ * Gᵀ`. -/
theorem tall_identities {m n : ℕ} (G : Matrix (Fin m) (Fin n) ℝ)
    (hA : (Gᵀ * G).PosDef) :
    G * ((Gᵀ * G)⁻¹ * Gᵀ) * G = G ∧
    ((Gᵀ * G)⁻¹ * Gᵀ) * G * ((Gᵀ * G)⁻¹ * Gᵀ) = (Gᵀ * G)⁻¹ * Gᵀ ∧
    (G * ((Gᵀ * G)⁻¹ * Gᵀ))ᵀ = G * ((Gᵀ * G)⁻¹ * Gᵀ) ∧
    (((Gᵀ * G)⁻¹ * Gᵀ) * G)ᵀ = ((Gᵀ * G)⁻¹ * Gᵀ) * G := by
  have hAd : IsUnit (Gᵀ * G).det := (Matrix.isUnit_iff_isUnit_det _).mp hA.isUnit
  have hYG : ((Gᵀ * G)⁻¹ * Gᵀ) * G = 1 := by
    rw [Matrix.mul_assoc, Matrix.nonsing_inv_mul _ hAd]
  refine ⟨?_, ?_, ?_, ?_⟩
  · rw [Matrix.mul_assoc, hYG, Matrix.mul_one]
  · rw [hYG, Matrix.one_mul]
  · simp only [Matrix.transpose_mul, Matrix.transpose_nonsing_inv,
      Matrix.transpose_transpose, Matrix.mul_assoc]
  · rw [hYG, Matrix.transpose_one]

/-- The four Moore-Penrose identities for `Gᵀ * (G*Gᵀ)⁻¹`. -/
theorem wide_identities {m n : ℕ} (G : Matrix (Fin m) (Fin n) ℝ)
    (hA : (G * Gᵀ).PosDef) :
    G * (Gᵀ * (G * Gᵀ)⁻¹) * G = G ∧
    (Gᵀ * (G * Gᵀ)⁻¹) * G * (Gᵀ * (G * Gᵀ)⁻¹) = Gᵀ * (G * Gᵀ)⁻¹ ∧
    (G * (Gᵀ * (G * Gᵀ)⁻¹))ᵀ = G * (Gᵀ * (G * Gᵀ)⁻¹) ∧
    ((Gᵀ * (G * Gᵀ)⁻¹) * G)ᵀ = (Gᵀ * (G * Gᵀ)⁻¹) * G := by
  have hAd : IsUnit (G * Gᵀ).det := (Matrix.isUnit_iff_isUnit_det _).mp hA.isUnit
  have hGY : G * (Gᵀ * (G * Gᵀ)⁻¹) = 1 := by
    rw [← Matrix.mul_assoc, Matrix.mul_nonsing_inv _ hAd]
  refine ⟨?_, ?_, ?_, ?_⟩
  · rw [hGY, Matrix.one_mul]
  · rw [Matrix.mul_assoc, hGY, Matrix.mul_one]
  · rw [hGY, Matrix.transpose_one]
  · simp only [Matrix.transpose_mul, Matrix.transpose_nonsing_inv,
      Matrix.transpose_transpose, Matrix.mul_assoc]

/-! ## Claim theorems -/

/-- Claim C1: for every full-rank input matrix `G` of shape `(m, n)`
(`rank G = min m n`), the result `Y` of `mp_pinv G` satisfies the four
Moore-Penrose identities exactly under exact arithmetic: `G*Y*G = G`,
`Y*G*Y = Y`, `(G*Y)ᵀ = G*Y`, and `(Y*G)ᵀ = Y*G`. -/
theorem mp_pinv_moore_penrose (np : NumpyLinalg) (hnp : np.Spec) {m n : ℕ}
    (G : Matrix (Fin m) (Fin n) ℝ) (hrank : G.rank = min m n) :
    ∃ Y, mp_pinv np G = .ok Y ∧
      G * Y * G = G ∧ Y * G * Y = Y ∧ (G * Y)ᵀ = G * Y ∧ (Y * G)ᵀ = Y * G := by
  by_cases h : m < n
  · have hr : G.rank = m := by rwa [min_eq_left h.le] at hrank
    have hA : (G * Gᵀ).PosDef := posDef_self_mul_transpose G hr
    obtain ⟨i1, i2, i3, i4⟩ := wide_identities G hA
    exact ⟨Gᵀ * (G * Gᵀ)⁻¹, mp_pinv_wide_eval np hnp G h hA, i1, i2, i3, i4⟩
  · have hr : G.rank = n := by rwa [min_eq_right (Nat.le_of_not_lt h)] at hrank
    have hA : (Gᵀ * G).PosDef := posDef_transpose_mul_self G hr
    obtain ⟨i1, i2, i3, i4⟩ := tall_identities G hA
    exact ⟨(Gᵀ * G)⁻¹ * Gᵀ, mp_pinv_tall_eval np hnp G h hA, i1, i2, i3, i4⟩

/-- Claim C2: on the wide branch (`m < n`) `mp_pinv` forms `A = G * Gᵀ`,
obtains the Cholesky factor `L` with `L * Lᵀ = A`, computes
`M = (Lᵀ*L)⁻¹`, and returns `Gᵀ*L*M*M*Lᵀ`; on the tall/square branch it
forms `A = Gᵀ * G` and returns `L*M*M*Lᵀ*Gᵀ` with `L`, `M` defined the
same way. -/
theorem mp_pinv_branch_formula (np : NumpyLinalg) (hnp : np.Spec) {m n : ℕ}
    (G : Matrix (Fin m) (Fin n) ℝ) :
    (m < n → (G * Gᵀ).PosDef →
      ∃ L : Matrix (Fin m) (Fin m) ℝ, np.chol (G * Gᵀ) = .ok L ∧ L * Lᵀ = G * Gᵀ ∧
        mp_pinv np G = .ok (Gᵀ * L * (Lᵀ * L)⁻¹ * (Lᵀ * L)⁻¹ * Lᵀ)) ∧
    (¬ m < n → (Gᵀ * G).PosDef →
      ∃ L : Matrix (Fin n) (Fin n) ℝ, np.chol (Gᵀ * G) = .ok L ∧ L * Lᵀ = Gᵀ * G ∧
        mp_pinv np G = .ok (L * (Lᵀ * L)⁻¹ * (Lᵀ * L)⁻¹ * Lᵀ * Gᵀ)) := by
  constructor
  · intro h hA
    obtain ⟨L, hL, hfac⟩ := hnp.chol_ok _ hA
    have hLd := isUnit_det_of_cholesky hA hfac
    have hLtLd : IsUnit (Lᵀ * L).det := by
      rw [Matrix.det_mul, Matrix.det_transpose]
      exact hLd.mul hLd
    exact ⟨L, hL, hfac, mp_pinv_lt_ok h hL (hnp.inv_ok _ hLtLd)⟩
  · intro h hA
    obtain ⟨L, hL, hfac⟩ := hnp.chol_ok _ hA
    have hLd := isUnit_det_of_cholesky hA hfac
    have hLtLd : IsUnit (Lᵀ * L).det := by
      rw [Matrix.det_mul, Matrix.det_transpose]
      exact hLd.mul hLd
    exact ⟨L, hL, hfac, mp_pinv_ge_ok h hL (hnp.inv_ok _ hLtLd)⟩

/-- Claim C6: for a square full-rank matrix `G`, the pseudoinverse of the
transpose is the transpose of the pseudoinverse:
`mp_pinv (Gᵀ) = (mp_pinv G)ᵀ`, exactly under exact arithmetic. -/
theorem mp_pinv_transpose_comm (np : NumpyLinalg) (hnp : np.Spec) {n : ℕ}
    (G : Matrix (Fin n) (Fin n) ℝ) (hrank : G.rank = n) :
    ∃ Y Z, mp_pinv np G = .ok Y ∧ mp_pinv np Gᵀ = .ok Z ∧ Z = Yᵀ := by
  have hA : (Gᵀ * G).PosDef := posDef_transpose_mul_self G hrank
  have hA2 : ((Gᵀ)ᵀ * Gᵀ).PosDef := by
    rw [Matrix.transpose_transpose]
    exact posDef_self_mul_transpose G hrank
  have hGd : IsUnit G.det := by
    have hAd : IsUnit (Gᵀ * G).det := (Matrix.isUnit_iff_isUnit_det _).mp hA.isUnit
    rw [Matrix.det_mul, Matrix.det_transpose] at hAd
    exact isUnit_iff_ne_zero.mpr fun h0 => by simp [h0] at hAd
  have hGtd : IsUnit Gᵀ.det := by rwa [Matrix.det_transpose]
  refine ⟨(Gᵀ * G)⁻¹ * Gᵀ, ((Gᵀ)ᵀ * Gᵀ)⁻¹ * (Gᵀ)ᵀ,
    mp_pinv_tall_eval np hnp G (lt_irrefl n) hA,
    mp_pinv_tall_eval np hnp Gᵀ (lt_irrefl n) hA2, ?_⟩
  rw [Matrix.transpose_transpose]
  simp only [Matrix.transpose_mul, Matrix.transpose_nonsing_inv, Matrix.transpose_transpose]
  rw [Matrix.mul_inv_rev, Matrix.mul_inv_rev, Matrix.mul_assoc,
    Matrix.nonsing_inv_mul _ hGd, Matrix.mul_one, ← Matrix.mul_assoc,
    Matrix.mul_nonsing_inv _ hGd, Matrix.one_mul]

/-- Claim C3: for an input of shape `(m, n)` the shape-level replay of the
numpy operation chain of `mp_pinv` succeeds (every `np.matmul` has
matching inner dimensions, every `cholesky`/`inv` argument is square) and
produces shape `(n, m)`, in both the wide branch and the tall/square
branch. -/
theorem mp_pinvShape_eq (m n : ℕ) : mp_pinvShape m n = some (n, m) := by
  by_cases h : m < n <;>
    simp [mp_pinvShape, matmulShape, transposeShape, cholShape, invShape, h]

/-- Claim C4: under the library contract, `mp_pinv` fails with the
factorization error exactly when the Gram matrix of its branch is not
positive definite (surfaced from the Cholesky step); it fails with the
distinct singular-matrix error when `Lᵀ*L` is singular; and it has no
other failure mode: on a positive definite Gram matrix it returns a
result. -/
theorem mp_pinv_error_modes (np : NumpyLinalg) (hnp : np.Spec) {m n : ℕ}
    (G : Matrix (Fin m) (Fin n) ℝ) :
    (m < n → ¬ (G * Gᵀ).PosDef → mp_pinv np G = .error .factorization) ∧
    (¬ m < n → ¬ (Gᵀ * G).PosDef → mp_pinv np G = .error .factorization) ∧
    (∀ L : Matrix (Fin m) (Fin m) ℝ, m < n → np.chol (G * Gᵀ) = .ok L →
      ¬ IsUnit (Lᵀ * L).det → mp_pinv np G = .error .singular) ∧
    (∀ L : Matrix (Fin n) (Fin n) ℝ, ¬ m < n → np.chol (Gᵀ * G) = .ok L →
      ¬ IsUnit (Lᵀ * L).det → mp_pinv np G = .error .singular) ∧
    (m < n → (G * Gᵀ).PosDef → ∃ Y, mp_pinv np G = .ok Y) ∧
    (¬ m < n → (Gᵀ * G).PosDef → ∃ Y, mp_pinv np G = .ok Y) := by
  refine ⟨?_, ?_, ?_, ?_, ?_, ?_⟩
  · intro h hA
    exact mp_pinv_lt_chol_err h (hnp.chol_err _ hA)
  · intro h hA
    exact mp_pinv_ge_chol_err h (hnp.chol_err _ hA)
  · intro L h hL hdet
    exact mp_pinv_lt_inv_err h hL (hnp.inv_err _ hdet)
  · intro L h hL hdet
    exact mp_pinv_ge_inv_err h hL (hnp.inv_err _ hdet)
  · intro h hA
    exact ⟨_, mp_pinv_wide_eval np hnp G h hA⟩
  · intro h hA
    exact ⟨_, mp_pinv_tall_eval np hnp G h hA⟩

/-- Claim C5: on a rank-deficient input (`rank G < min m n`), `mp_pinv`
raises the factorization error at the Cholesky step and never returns a
numeric result matrix. -/
theorem mp_pinv_rank_deficient (np : NumpyLinalg) (hnp : np.Spec) {m n : ℕ}
    (G : Matrix (Fin m) (Fin n) ℝ) (hrank : G.rank < min m n) :
    mp_pinv np G = .error .factorization ∧ ∀ Y, mp_pinv np G ≠ .ok Y := by
  have herr : mp_pinv np G = .error .factorization := by
    by_cases h : m < n
    · refine mp_pinv_lt_chol_err h (hnp.chol_err _ ?_)
      intro hA
      rw [rank_eq_of_posDef_self_mul_transpose G hA] at hrank
      exact absurd hrank (not_lt.mpr (min_le_left m n))
    · refine mp_pinv_ge_chol_err h (hnp.chol_err _ ?_)
      intro hA
      rw [rank_eq_of_posDef_transpose_mul_self G hA] at hrank
      exact absurd hrank (not_lt.mpr (min_le_right m n))
  refine ⟨herr, fun Y hY => ?_⟩
  rw [herr] at hY
  exact Except.noConfusion hY

/-- Claim C8: the test-time classifier thresholds scores at `0.5`: the
emitted label is `1` when the score exceeds `0.5` and `0` otherwise, so a
score of exactly `0.5` is classified as `0`. -/
theorem Ypred_threshold {a b : ℕ} (testY : Matrix (Fin a) (Fin b) ℝ)
    (i : Fin a) (j : Fin b) :
    Ypred testY i j = if 0.5 < testY i j then 1 else 0 := by
  by_cases h : testY i j ≤ 0.5
  · simp [Ypred, h, not_lt.mpr h]
  · simp [Ypred, h, lt_of_not_le h]

/-- Claim C9: every entry of `Ypred = np.where(testY <= 0.5, 0, 1)` is
exactly `0` or exactly `1`, for every real score matrix. -/
theorem Ypred_binary {a b : ℕ} (testY : Matrix (Fin a) (Fin b) ℝ)
    (i : Fin a) (j : Fin b) :
    Ypred testY i j = 0 ∨ Ypred testY i j = 1 := by
  by_cases h : testY i j ≤ 0.5
  · left
    simp [Ypred, h]
  · right
    simp [Ypred, h]

/-- Claim C10: `sigmoid x = 1/(1+exp(-x))` lies strictly between `0` and
`1` for every real `x`; consequently every entry of the hidden-layer
activation matrix `H = sigmoid(w_i @ X.T + b_m)` (and likewise `H_test`)
lies in the open interval `(0, 1)`. -/
theorem sigmoid_and_hidden_bounds :
    (∀ x : ℝ, 0 < sigmoid x ∧ sigmoid x < 1) ∧
    (∀ {h d t : ℕ} (w_i : Matrix (Fin h) (Fin d) ℝ) (b_i : Fin h → ℝ)
      (X : Matrix (Fin t) (Fin d) ℝ) (i : Fin h) (j : Fin t),
      0 < hiddenH w_i b_i X i j ∧ hiddenH w_i b_i X i j < 1) := by
  have hmain : ∀ x : ℝ, 0 < sigmoid x ∧ sigmoid x < 1 := by
    intro x
    have hd : (0:ℝ) < 1 + Real.exp (-x) := by positivity
    constructor
    · exact div_pos one_pos hd
    · rw [sigmoid, div_lt_one hd]
      exact lt_add_of_pos_right 1 (Real.exp_pos _)
  refine ⟨hmain, ?_⟩
  intro h d t w_i b_i X i j
  exact hmain _

/-! ## Witnesses: the claim theorems applied at concrete inputs -/

/-- Witness for C1 at the concrete full-rank input `G = 1` (1×1 identity). -/
theorem mp_pinv_moore_penrose_witness :
    stdNumpy.Spec ∧ (1 : Matrix (Fin 1) (Fin 1) ℝ).rank = min 1 1 ∧
    ∃ Y, mp_pinv stdNumpy (1 : Matrix (Fin 1) (Fin 1) ℝ) = .ok Y ∧
      1 * Y * 1 = (1 : Matrix (Fin 1) (Fin 1) ℝ) ∧ Y * 1 * Y = Y ∧
      ((1 : Matrix (Fin 1) (Fin 1) ℝ) * Y)ᵀ = 1 * Y ∧ (Y * 1)ᵀ = Y * 1 :=
  ⟨stdNumpy_spec, by simp [Matrix.rank_one],
    mp_pinv_moore_penrose stdNumpy stdNumpy_spec 1 (by simp [Matrix.rank_one])⟩

/-- Witness for C2 at the concrete wide input `G = [[1, 0]]`. -/
theorem mp_pinv_branch_formula_witness :
    stdNumpy.Spec ∧
    ((1 < 2 → ((!![(1:ℝ), 0]) * (!![(1:ℝ), 0])ᵀ).PosDef →
      ∃ L : Matrix (Fin 1) (Fin 1) ℝ,
        stdNumpy.chol ((!![(1:ℝ), 0]) * (!![(1:ℝ), 0])ᵀ) = .ok L ∧
        L * Lᵀ = (!![(1:ℝ), 0]) * (!![(1:ℝ), 0])ᵀ ∧
        mp_pinv stdNumpy (!![(1:ℝ), 0]) =
          .ok ((!![(1:ℝ), 0])ᵀ * L * (Lᵀ * L)⁻¹ * (Lᵀ * L)⁻¹ * Lᵀ)) ∧
    (¬ 1 < 2 → ((!![(1:ℝ), 0])ᵀ * (!![(1:ℝ), 0])).PosDef →
      ∃ L : Matrix (Fin 2) (Fin 2) ℝ,
        stdNumpy.chol ((!![(1:ℝ), 0])ᵀ * (!![(1:ℝ), 0])) = .ok L ∧
        L * Lᵀ = (!![(1:ℝ), 0])ᵀ * (!![(1:ℝ), 0]) ∧
        mp_pinv stdNumpy (!![(1:ℝ), 0]) =
          .ok (L * (Lᵀ * L)⁻¹ * (Lᵀ * L)⁻¹ * Lᵀ * (!![(1:ℝ), 0])ᵀ))) :=
  ⟨stdNumpy_spec, mp_pinv_branch_formula stdNumpy stdNumpy_spec !![(1:ℝ), 0]⟩

/-- Witness for C4 at the concrete input `G = 1` (1×1 identity). -/
theorem mp_pinv_error_modes_witness :
    stdNumpy.Spec ∧
    ((1 < 1 → ¬ ((1 : Matrix (Fin 1) (Fin 1) ℝ) * (1 : Matrix (Fin 1) (Fin 1) ℝ)ᵀ).PosDef →
      mp_pinv stdNumpy (1 : Matrix (Fin 1) (Fin 1) ℝ) = .error .factorization) ∧
    (¬ 1 < 1 → ¬ ((1 : Matrix (Fin 1) (Fin 1) ℝ)ᵀ * 1).PosDef →
      mp_pinv stdNumpy (1 : Matrix (Fin 1) (Fin 1) ℝ) = .error .factorization) ∧
    (∀ L : Matrix (Fin 1) (Fin 1) ℝ, 1 < 1 →
      stdNumpy.chol ((1 : Matrix (Fin 1) (Fin 1) ℝ) * (1 : Matrix (Fin 1) (Fin 1) ℝ)ᵀ) = .ok L →
      ¬ IsUnit (Lᵀ * L).det →
      mp_pinv stdNumpy (1 : Matrix (Fin 1) (Fin 1) ℝ) = .error .singular) ∧
    (∀ L : Matrix (Fin 1) (Fin 1) ℝ, ¬ 1 < 1 →
      stdNumpy.chol ((1 : Matrix (Fin 1) (Fin 1) ℝ)ᵀ * 1) = .ok L →
      ¬ IsUnit (Lᵀ * L).det →
      mp_pinv stdNumpy (1 : Matrix (Fin 1) (Fin 1) ℝ) = .error .singular) ∧
    (1 < 1 → ((1 : Matrix (Fin 1) (Fin 1) ℝ) * (1 : Matrix (Fin 1) (Fin 1) ℝ)ᵀ).PosDef →
      ∃ Y, mp_pinv stdNumpy (1 : Matrix (Fin 1) (Fin 1) ℝ) = .ok Y) ∧
    (¬ 1 < 1 → ((1 : Matrix (Fin 1) (Fin 1) ℝ)ᵀ * 1).PosDef →
      ∃ Y, mp_pinv stdNumpy (1 : Matrix (Fin 1) (Fin 1) ℝ) = .ok Y)) :=
  ⟨stdNumpy_spec, mp_pinv_error_modes stdNumpy stdNumpy_spec 1⟩

/-- Witness for C5 at the concrete rank-deficient input `G = 0` (1×1). -/
theorem mp_pinv_rank_deficient_witness :
    stdNumpy.Spec ∧ (0 : Matrix (Fin 1) (Fin 1) ℝ).rank < min 1 1 ∧
    (mp_pinv stdNumpy (0 : Matrix (Fin 1) (Fin 1) ℝ) = .error .factorization ∧
      ∀ Y, mp_pinv stdNumpy (0 : Matrix (Fin 1) (Fin 1) ℝ) ≠ .ok Y) :=
  ⟨stdNumpy_spec, by simp [Matrix.rank_zero],
    mp_pinv_rank_deficient stdNumpy stdNumpy_spec 0 (by simp [Matrix.rank_zero])⟩

/-- Witness for C6 at the concrete square input `G = 1` (1×1 identity). -/
theorem mp_pinv_transpose_comm_witness :
    stdNumpy.Spec ∧ (1 : Matrix (Fin 1) (Fin 1) ℝ).rank = 1 ∧
    ∃ Y Z, mp_pinv stdNumpy (1 : Matrix (Fin 1) (Fin 1) ℝ) = .ok Y ∧
      mp_pinv stdNumpy (1 : Matrix (Fin 1) (Fin 1) ℝ)ᵀ = .ok Z ∧ Z = Yᵀ :=
  ⟨stdNumpy_spec, by simp [Matrix.rank_one],
    mp_pinv_transpose_comm stdNumpy stdNumpy_spec 1 (by simp [Matrix.rank_one])⟩

end ELM
